import Mathlib

/-!
Verification of the `array-chunks` crate: the iterator adapter `ArrayChunks<I, T, N>`
from `src/array_chunks_impl.rs`, which regroups a source iterator's items into
arrays of `N` consecutive items, keeping a partially filled fixed buffer of
`MaybeUninit<T>` slots together with the count `num_init` of initialized slots.

Shallow embedding choices:
* a Rust iterator is a state-passing step function `σ → Option T × σ`
  (`Iterator::next` consumes `&mut self` and yields `Option<T>`);
* the buffer `[MaybeUninit<T>; N]` is a `List (Option T)` of length `N`,
  where `none` models an uninitialized slot and `some x` a slot holding `x`;
* reading initialized memory (`assume_init`) is `slice_assume_init`, which
  returns `none` exactly when it would touch an uninitialized slot (that is,
  when the real code would be undefined behaviour);
* a Rust arithmetic panic (division by zero) is modelled by `rustDiv`
  returning `none`; `usize` overflow behaviour of `saturating_add` and
  `checked_add` is modelled over `Nat` against `USIZE_MAX = 2^64 - 1`.
-/

set_option autoImplicit false

namespace ArrayChunksVerify

/-- A pull-based iterator with state type `σ` yielding items of type `T`:
one `next` call returns the yielded item (or `none`) and the advanced state. -/
abbrev Iter (σ T : Type) : Type := σ → Option T × σ

/-- `ArrayChunks<I, T, N>`: the wrapped source iterator state, the fixed buffer of
`N` `MaybeUninit<T>` slots (`none` = uninitialized), and `num_init`. -/
structure ArrayChunks (σ T : Type) (N : Nat) where
  iter : σ
  buf : List (Option T)
  num_init : Nat
deriving DecidableEq

/-- `ArrayChunks::new`: wraps the source, all `N` slots uninitialized, `num_init = 0`. -/
def ArrayChunks.new {σ T : Type} (N : Nat) (it : σ) : ArrayChunks σ T N :=
  ⟨it, List.replicate N none, 0⟩

/-- `MaybeUninit::slice_assume_init_ref` / element-wise `assume_init_read` over a slice
of slots: the list of held values, or `none` if any slot is uninitialized (in the
real code that read would be undefined behaviour). -/
def slice_assume_init {T : Type} : List (Option T) → Option (List T)
  | [] => some []
  | none :: _ => none
  | some x :: rest => Option.map (fun l => x :: l) (slice_assume_init rest)

/-- The fill loop of `ArrayChunks::next`:
`for slot in &mut self.buf[self.num_init..] { *slot = MaybeUninit::new(self.iter.next()?); self.num_init += 1; }`.
`i` is the index of the next slot to fill and `k` the number of slots remaining in the
slice `buf[i..]` (the loop is called with `k = N - i`). Returns the final iterator
state, buffer, slot index, and whether the loop ran to completion (`true`) or stopped
at the source's exhaustion signal (`false`, the early `return None` of the `?`). -/
def fillFrom {σ T : Type} (step : Iter σ T) :
    σ → List (Option T) → Nat → Nat → σ × List (Option T) × Nat × Bool
  | s, buf, i, 0 => (s, buf, i, true)
  | s, buf, i, k + 1 =>
    match step s with
    | (none, s') => (s', buf, i, false)
    | (some x, s') => fillFrom step s' (buf.set i (some x)) (i + 1) k

/-- `ArrayChunks::next`: fill the empty suffix of the buffer from the source; if the
source runs dry first, return no chunk and keep the partial prefix; if the buffer
fills, read the whole buffer out as the chunk (`MaybeUninit::array_assume_init` of
`ptr::read(&self.buf)`) and reset `num_init` to 0. The inner `none` branch models
`array_assume_init` on a not-fully-initialized buffer (undefined behaviour), proven
unreachable from valid states. -/
def ArrayChunks.next {σ T : Type} {N : Nat} (step : Iter σ T) (st : ArrayChunks σ T N) :
    Option (List T) × ArrayChunks σ T N :=
  match fillFrom step st.iter st.buf st.num_init (N - st.num_init) with
  | (s', buf', i', true) =>
    match slice_assume_init buf' with
    | some chunk => (some chunk, ⟨s', buf', 0⟩)
    | none => (none, ⟨s', buf', i'⟩)
  | (s', buf', i', false) => (none, ⟨s', buf', i'⟩)

/-- `ArrayChunks::remainder`: a view of the initialized prefix `buf[..num_init]`
(`slice_assume_init_ref`); `none` models the undefined-behaviour read, proven
unreachable from valid states. -/
def ArrayChunks.remainder {σ T : Type} {N : Nat} (st : ArrayChunks σ T N) :
    Option (List T) :=
  slice_assume_init (st.buf.take st.num_init)

/-- The `usize::MAX` of a 64-bit target. -/
def USIZE_MAX : Nat := 2 ^ 64 - 1

/-- `usize::saturating_add`. -/
def saturating_add (a b : Nat) : Nat := min (a + b) USIZE_MAX

/-- `usize::checked_add`. -/
def checked_add (a b : Nat) : Option Nat :=
  if a + b ≤ USIZE_MAX then some (a + b) else none

/-- Rust `/` on `usize`: panics (modelled as `none`) exactly when the divisor is 0. -/
def rustDiv (a b : Nat) : Option Nat := if b = 0 then none else some (a / b)

/-- `ArrayChunks::size_hint`. The wrapped iterator's own `size_hint()` result is the
argument `srcHint`. A `none` result models a panic of the computation (division by
zero when `N = 0`); otherwise the pair `(min_chunks, max_chunks)` is returned. -/
def ArrayChunks.size_hint {σ T : Type} {N : Nat} (st : ArrayChunks σ T N)
    (srcHint : Nat × Option Nat) : Option (Nat × Option Nat) :=
  let min_items := srcHint.1
  let max_items := srcHint.2
  match rustDiv (saturating_add min_items st.num_init) N with
  | none => none
  | some min_chunks =>
    match max_items with
    | none => some (min_chunks, none)
    | some m =>
      match checked_add m st.num_init with
      | none => some (min_chunks, none)
      | some s =>
        match rustDiv s N with
        | none => none
        | some max_chunks => some (min_chunks, some max_chunks)

/-- `Drop for ArrayChunks`: the values released by the destructor, in order — it
walks `buf[..num_init]` and `assume_init_read`s (then drops) each slot, after which
the source iterator field is dropped. `none` models the undefined-behaviour read,
proven unreachable from valid states. -/
def ArrayChunks.dropReleased {σ T : Type} {N : Nat} (st : ArrayChunks σ T N) :
    Option (List T) :=
  slice_assume_init (st.buf.take st.num_init)

/-- Modelled from the spec: the repository's `Clone` implementation for `ArrayChunks`
(exercised by the `clone` test in `lib.rs`) is not present under `src/`. Per the spec,
Duplicate "produces an independent adapter with a duplicated source and a buffer whose
first `occupied_count` slots are independent copies of the original's live elements;
remaining slots are empty," and "must not copy or interpret the unoccupied suffix."
`cloneIter` and `cloneElem` are the `Clone` implementations of the source and of the
element type. -/
def ArrayChunks.clone {σ T : Type} {N : Nat} (cloneIter : σ → σ) (cloneElem : T → T)
    (st : ArrayChunks σ T N) : ArrayChunks σ T N :=
  ⟨cloneIter st.iter,
   (st.buf.take st.num_init).map (Option.map cloneElem) ++
     List.replicate (N - st.num_init) none,
   st.num_init⟩

/-- The representation invariant of `ArrayChunks<I, T, N>`: the buffer has exactly `N`
slots, `num_init ∈ [0, N]`, and every slot of `buf[..num_init]` is initialized. -/
def ArrayChunks.Valid {σ T : Type} {N : Nat} (st : ArrayChunks σ T N) : Prop :=
  st.buf.length = N ∧ st.num_init ≤ N ∧
    ∀ o ∈ st.buf.take st.num_init, o.isSome = true

instance {σ T : Type} {N : Nat} (st : ArrayChunks σ T N) : Decidable st.Valid := by
  unfold ArrayChunks.Valid; infer_instance

/-- The states of an adapter reachable through its public interface: freshly
constructed, or the post-state of any `next` call on a reachable state. -/
inductive Reachable {σ T : Type} {N : Nat} (step : Iter σ T) : ArrayChunks σ T N → Prop
  | new (it : σ) : Reachable step (ArrayChunks.new N it)
  | next (st : ArrayChunks σ T N) :
      Reachable step st → Reachable step (ArrayChunks.next step st).2

/-- Iterate `ArrayChunks::next` until it yields no chunk (or fuel runs out),
collecting the produced chunks in order and returning the final adapter state. -/
def run {σ T : Type} {N : Nat} (step : Iter σ T) :
    Nat → ArrayChunks σ T N → List (List T) × ArrayChunks σ T N
  | 0, st => ([], st)
  | fuel + 1, st =>
    match ArrayChunks.next step st with
    | (none, st') => ([], st')
    | (some g, st') =>
      let r := run step fuel st'
      (g :: r.1, r.2)

/-- The adapter state after `n` successive `next` calls. -/
def stepN {σ T : Type} {N : Nat} (step : Iter σ T) :
    Nat → ArrayChunks σ T N → ArrayChunks σ T N
  | 0, st => st
  | n + 1, st => stepN step n (ArrayChunks.next step st).2

/-- Pull up to `k` items from the source, stopping at the first exhaustion signal.
Returns the items pulled in order, the final source state, and whether all `k`
pulls yielded an item. This is the pure trace of the fill loop's source queries. -/
def pulls {σ T : Type} (step : Iter σ T) : σ → Nat → List T × σ × Bool
  | s, 0 => ([], s, true)
  | s, k + 1 =>
    match step s with
    | (none, s') => ([], s', false)
    | (some x, s') =>
      let r := pulls step s' k
      (x :: r.1, r.2)

/-- Write the values `xs` into consecutive slots of `buf` starting at index `i`. -/
def writeAll {T : Type} : List (Option T) → Nat → List T → List (Option T)
  | buf, _, [] => buf
  | buf, i, x :: xs => writeAll (buf.set i (some x)) (i + 1) xs

/-- The fill loop of `ArrayChunks::next`, instrumented to also record the value of
`num_init` after each `self.num_init += 1` mutation. -/
def fillFromTr {σ T : Type} (step : Iter σ T) :
    σ → List (Option T) → Nat → Nat → σ × List (Option T) × Nat × Bool × List Nat
  | s, buf, i, 0 => (s, buf, i, true, [])
  | s, buf, i, k + 1 =>
    match step s with
    | (none, s') => (s', buf, i, false, [])
    | (some x, s') =>
      let r := fillFromTr step s' (buf.set i (some x)) (i + 1) k
      (r.1, r.2.1, r.2.2.1, r.2.2.2.1, (i + 1) :: r.2.2.2.2)

/-- The successive values taken by `num_init` during one `ArrayChunks::next` call:
one entry per slot filled, plus the final reset to `0` when a chunk is emitted. -/
def nextTr {σ T : Type} {N : Nat} (step : Iter σ T) (st : ArrayChunks σ T N) :
    List Nat :=
  match fillFromTr step st.iter st.buf st.num_init (N - st.num_init) with
  | (_, buf', _, true, tr) =>
    match slice_assume_init buf' with
    | some _ => tr ++ [0]
    | none => tr
  | (_, _, _, false, tr) => tr

/-- `ProduceNextGroup` performs no invalid read: whenever the fill loop of `next`
runs to completion, the whole buffer is initialized, so `array_assume_init` is safe. -/
def nextNoUB {σ T : Type} {N : Nat} (step : Iter σ T) (st : ArrayChunks σ T N) : Prop :=
  ∀ s' buf' i',
    fillFrom step st.iter st.buf st.num_init (N - st.num_init) = (s', buf', i', true) →
    (slice_assume_init buf').isSome = true

/-- Instrument an iterator to count how many times it is queried. -/
def countStep {σ T : Type} (step : Iter σ T) : Iter (σ × Nat) T :=
  fun p =>
    let r := step p.1
    (r.1, (r.2, p.2 + 1))

/-- Attach a query counter (starting at 0) to an adapter's source. -/
def withCounter {σ T : Type} {N : Nat} (st : ArrayChunks σ T N) :
    ArrayChunks (σ × Nat) T N :=
  ⟨(st.iter, 0), st.buf, st.num_init⟩

/-- A finite source: yields the elements of a list in order, then `none` forever. -/
def listStep {T : Type} : Iter (List T) T
  | [] => (none, [])
  | x :: xs => (some x, xs)

/-- The non-fused source of the `non_fused_source_iterator_2` test in `lib.rs`:
state `(toggle, i)`; each call flips `toggle`, yielding `i + 1` when the flip turns
it on and exhaustion when it turns it off — so it yields
`1`, exhaustion, `2`, exhaustion, `3`, `4` is never adjacent… i.e. the stream
"yield 1, report exhaustion, yield 2, report exhaustion, yield 3, …". -/
def toggleStep : Iter (Bool × Nat) Nat :=
  fun p => if p.1 then (none, (false, p.2)) else (some (p.2 + 1), (true, p.2 + 1))

/-- The size estimate exactly as claim C7 words it: lower bound
`(min_items + occupied_count) / N` with saturating addition, upper bound
`(max_items + occupied_count) / N` whenever the source provides `max_items`
(no overflow proviso on the upper bound). -/
def claimedSizeHint (N num_init : Nat) (srcHint : Nat × Option Nat) :
    Nat × Option Nat :=
  (saturating_add srcHint.1 num_init / N,
   srcHint.2.map (fun m => (m + num_init) / N))

/-! ## Basic lemmas about the embedding's building blocks -/

variable {σ T : Type} {N : Nat}

theorem slice_assume_init_map_some (l : List T) :
    slice_assume_init (l.map some) = some l := by
  induction l with
  | nil => rfl
  | cons x xs ih => simp [slice_assume_init, ih]

theorem slice_assume_init_eq_some {l : List (Option T)} {v : List T}
    (h : slice_assume_init l = some v) : l = v.map some := by
  induction l generalizing v with
  | nil =>
    simp only [slice_assume_init, Option.some.injEq] at h
    simp [← h]
  | cons o rest ih =>
    cases o with
    | none => simp [slice_assume_init] at h
    | some x =>
      simp only [slice_assume_init] at h
      rcases hr : slice_assume_init rest with _ | w
      · rw [hr] at h; simp at h
      · rw [hr] at h
        simp only [Option.map_some', Option.some.injEq] at h
        subst h
        simp [ih hr]

theorem exists_of_all_isSome {l : List (Option T)} (h : ∀ o ∈ l, o.isSome = true) :
    ∃ v : List T, l = v.map some := by
  induction l with
  | nil => exact ⟨[], rfl⟩
  | cons o rest ih =>
    have ho := h o (List.mem_cons_self o rest)
    obtain ⟨x, rfl⟩ := Option.isSome_iff_exists.mp ho
    obtain ⟨v, hv⟩ := ih fun o' ho' => h o' (List.mem_cons_of_mem _ ho')
    exact ⟨x :: v, by simp [hv]⟩

theorem writeAll_length (xs : List T) :
    ∀ (buf : List (Option T)) (i : Nat), (writeAll buf i xs).length = buf.length := by
  induction xs with
  | nil => intro buf i; rfl
  | cons x xs ih => intro buf i; simp [writeAll, ih]

theorem take_set_succ {buf : List (Option T)} {i : Nat} (o : Option T)
    (h : i < buf.length) : (buf.set i o).take (i + 1) = buf.take i ++ [o] := by
  rw [List.set_eq_take_append_cons_drop]
  simp only [h, if_true]
  have hl : i + 1 = (buf.take i).length + 1 := by
    simp [List.length_take, Nat.min_eq_left (Nat.le_of_lt h)]
  rw [hl, List.take_append]
  simp

theorem take_writeAll (xs : List T) :
    ∀ (buf : List (Option T)) (i : Nat), i + xs.length ≤ buf.length →
      (writeAll buf i xs).take (i + xs.length) = buf.take i ++ xs.map some := by
  induction xs with
  | nil => intro buf i _; simp [writeAll]
  | cons x xs ih =>
    intro buf i h
    have hi : i < buf.length := by simp at h; omega
    have harith : i + (x :: xs).length = (i + 1) + xs.length := by simp; omega
    rw [harith]
    show (writeAll (buf.set i (some x)) (i + 1) xs).take ((i + 1) + xs.length) = _
    rw [ih (buf.set i (some x)) (i + 1) (by simp at h ⊢; omega)]
    rw [take_set_succ (some x) hi]
    simp

theorem drop_writeAll (xs : List T) :
    ∀ (buf : List (Option T)) (i : Nat),
      (writeAll buf i xs).drop (i + xs.length) = buf.drop (i + xs.length) := by
  induction xs with
  | nil => intro buf i; rfl
  | cons x xs ih =>
    intro buf i
    have harith : i + (x :: xs).length = (i + 1) + xs.length := by simp; omega
    rw [harith]
    show (writeAll (buf.set i (some x)) (i + 1) xs).drop ((i + 1) + xs.length) = _
    rw [ih (buf.set i (some x)) (i + 1)]
    exact List.drop_set_of_lt _ _ (by omega)

/-! ## Lemmas about `pulls`, and `fillFrom` as `pulls` plus `writeAll` -/

theorem pulls_zero (step : Iter σ T) (s : σ) : pulls step s 0 = ([], s, true) := rfl

theorem pulls_succ_none {step : Iter σ T} {s s' : σ} {k : Nat}
    (h : step s = (none, s')) : pulls step s (k + 1) = ([], s', false) := by
  simp [pulls, h]

theorem pulls_succ_some {step : Iter σ T} {s s' : σ} {x : T} {k : Nat}
    (h : step s = (some x, s')) :
    pulls step s (k + 1) = (x :: (pulls step s' k).1, (pulls step s' k).2) := by
  simp [pulls, h]

theorem pulls_full_length {step : Iter σ T} :
    ∀ {k : Nat} {s s' : σ} {xs : List T},
      pulls step s k = (xs, s', true) → xs.length = k := by
  intro k
  induction k with
  | zero => intro s s' xs h; simp [pulls_zero] at h; simp [← h.1]
  | succ k ih =>
    intro s s' xs h
    rcases hs : step s with ⟨o, s₁⟩
    cases o with
    | none => rw [pulls_succ_none hs] at h; simp at h
    | some x =>
      rw [pulls_succ_some hs] at h
      rcases hr : pulls step s₁ k with ⟨ys, s₂, full⟩
      rw [hr] at h
      simp only [Prod.mk.injEq] at h
      obtain ⟨h1, h2, h3⟩ := h
      subst h3
      have := ih hr
      simp [← h1, this]

theorem pulls_len_lt_of_not_full {step : Iter σ T} :
    ∀ {k : Nat} {s s' : σ} {xs : List T},
      pulls step s k = (xs, s', false) → xs.length < k := by
  intro k
  induction k with
  | zero => intro s s' xs h; simp [pulls_zero] at h
  | succ k ih =>
    intro s s' xs h
    rcases hs : step s with ⟨o, s₁⟩
    cases o with
    | none =>
      rw [pulls_succ_none hs] at h
      simp only [Prod.mk.injEq] at h
      simp [← h.1]
    | some x =>
      rw [pulls_succ_some hs] at h
      rcases hr : pulls step s₁ k with ⟨ys, s₂, full⟩
      rw [hr] at h
      simp only [Prod.mk.injEq] at h
      obtain ⟨h1, h2, h3⟩ := h
      subst h3
      have := ih hr
      simp [← h1]
      omega

theorem fillFrom_eq_pulls (step : Iter σ T) :
    ∀ (k : Nat) (s : σ) (buf : List (Option T)) (i : Nat),
      fillFrom step s buf i k =
        ((pulls step s k).2.1, writeAll buf i (pulls step s k).1,
         i + (pulls step s k).1.length, (pulls step s k).2.2) := by
  intro k
  induction k with
  | zero => intro s buf i; simp [fillFrom, pulls_zero, writeAll]
  | succ k ih =>
    intro s buf i
    rcases hs : step s with ⟨o, s'⟩
    cases o with
    | none =>
      rw [pulls_succ_none hs]
      simp [fillFrom, hs, writeAll]
    | some x =>
      rw [pulls_succ_some hs]
      have hstep : fillFrom step s buf i (k + 1) =
          fillFrom step s' (buf.set i (some x)) (i + 1) k := by
        simp [fillFrom, hs]
      rw [hstep, ih s' (buf.set i (some x)) (i + 1)]
      have harith : i + ((pulls step s' k).1.length + 1) =
          (i + 1) + (pulls step s' k).1.length := by omega
      simp only [writeAll, List.length_cons, harith]

/-! ## Characterization of `ArrayChunks::next` on valid states -/

theorem writeAll_full_map_some {st : ArrayChunks σ T N} {p xs : List T}
    (hv : st.Valid) (hp : st.buf.take st.num_init = p.map some)
    (hxs : xs.length = N - st.num_init) :
    writeAll st.buf st.num_init xs = (p ++ xs).map some := by
  obtain ⟨hlen, hle, _⟩ := hv
  have hsum : st.num_init + xs.length = N := by omega
  have hwlen : (writeAll st.buf st.num_init xs).length = N := by
    rw [writeAll_length, hlen]
  calc writeAll st.buf st.num_init xs
      = (writeAll st.buf st.num_init xs).take (st.num_init + xs.length) :=
        (List.take_of_length_le (by rw [hwlen]; omega)).symm
    _ = st.buf.take st.num_init ++ xs.map some :=
        take_writeAll xs st.buf st.num_init (by rw [hlen]; omega)
    _ = (p ++ xs).map some := by rw [hp]; simp

theorem next_eq_of_full {step : Iter σ T} {st : ArrayChunks σ T N} {p xs : List T}
    {s' : σ} (hv : st.Valid) (hp : st.buf.take st.num_init = p.map some)
    (hpull : pulls step st.iter (N - st.num_init) = (xs, s', true)) :
    ArrayChunks.next step st =
      (some (p ++ xs), ⟨s', writeAll st.buf st.num_init xs, 0⟩) := by
  have hxs : xs.length = N - st.num_init := pulls_full_length hpull
  have hsl : slice_assume_init (writeAll st.buf st.num_init xs) = some (p ++ xs) := by
    rw [writeAll_full_map_some hv hp hxs, slice_assume_init_map_some]
  simp [ArrayChunks.next, fillFrom_eq_pulls, hpull, hsl]

theorem next_eq_of_not_full {step : Iter σ T} {st : ArrayChunks σ T N} {xs : List T}
    {s' : σ} (hpull : pulls step st.iter (N - st.num_init) = (xs, s', false)) :
    ArrayChunks.next step st =
      (none, ⟨s', writeAll st.buf st.num_init xs, st.num_init + xs.length⟩) := by
  simp [ArrayChunks.next, fillFrom_eq_pulls, hpull]

theorem valid_new (it : σ) : (ArrayChunks.new (T := T) N it).Valid := by
  refine ⟨by simp [ArrayChunks.new], Nat.zero_le N, ?_⟩
  simp [ArrayChunks.new]

theorem valid_take_exists {st : ArrayChunks σ T N} (hv : st.Valid) :
    ∃ p : List T, st.buf.take st.num_init = p.map some ∧ p.length = st.num_init := by
  obtain ⟨v, hvp⟩ := exists_of_all_isSome hv.2.2
  refine ⟨v, hvp, ?_⟩
  have h1 : (st.buf.take st.num_init).length = st.num_init := by
    rw [List.length_take]
    have := hv.1
    have := hv.2.1
    omega
  rw [hvp] at h1
  simpa using h1

theorem reachable_valid {step : Iter σ T} {st : ArrayChunks σ T N}
    (h : Reachable step st) :
    st.Valid ∧ (st.num_init = 0 ∨ st.num_init < N) := by
  induction h with
  | new it => exact ⟨valid_new it, Or.inl rfl⟩
  | next st' hr ih =>
    obtain ⟨hv, _⟩ := ih
    obtain ⟨p, hp, hplen⟩ := valid_take_exists hv
    rcases hpull : pulls step st'.iter (N - st'.num_init) with ⟨xs, s', full⟩
    cases full with
    | true =>
      rw [next_eq_of_full hv hp hpull]
      exact ⟨⟨by simp [writeAll_length, hv.1], Nat.zero_le N, by simp⟩, Or.inl rfl⟩
    | false =>
      have hlt : xs.length < N - st'.num_init := pulls_len_lt_of_not_full hpull
      have hle := hv.2.1
      have hni : st'.num_init + xs.length < N := by omega
      rw [next_eq_of_not_full hpull]
      refine ⟨⟨by simp [writeAll_length, hv.1], Nat.le_of_lt hni, ?_⟩, Or.inr hni⟩
      show ∀ o ∈ (writeAll st'.buf st'.num_init xs).take (st'.num_init + xs.length),
        o.isSome = true
      rw [take_writeAll xs st'.buf st'.num_init (by rw [hv.1]; omega), hp,
        ← List.map_append]
      intro o ho
      obtain ⟨x, _, rfl⟩ := List.mem_map.mp ho
      rfl

/-! ## The `num_init` trace and the query counter -/

theorem fillFromTr_eq (step : Iter σ T) :
    ∀ (k : Nat) (s : σ) (buf : List (Option T)) (i : Nat),
      fillFromTr step s buf i k =
        ((fillFrom step s buf i k).1, (fillFrom step s buf i k).2.1,
         (fillFrom step s buf i k).2.2.1, (fillFrom step s buf i k).2.2.2,
         List.range' (i + 1) (pulls step s k).1.length) := by
  intro k
  induction k with
  | zero => intro s buf i; simp [fillFromTr, fillFrom, pulls_zero]
  | succ k ih =>
    intro s buf i
    rcases hs : step s with ⟨o, s'⟩
    cases o with
    | none =>
      rw [pulls_succ_none hs]
      simp [fillFromTr, fillFrom, hs]
    | some x =>
      rw [pulls_succ_some hs]
      have h1 : fillFromTr step s buf i (k + 1) =
          (let r := fillFromTr step s' (buf.set i (some x)) (i + 1) k
           (r.1, r.2.1, r.2.2.1, r.2.2.2.1, (i + 1) :: r.2.2.2.2)) := by
        simp [fillFromTr, hs]
      have h2 : fillFrom step s buf i (k + 1) =
          fillFrom step s' (buf.set i (some x)) (i + 1) k := by
        simp [fillFrom, hs]
      rw [h1, ih s' (buf.set i (some x)) (i + 1), h2]
      simp [List.range'_succ]

theorem nextTr_eq_full {step : Iter σ T} {st : ArrayChunks σ T N} {p xs : List T}
    {s' : σ} (hv : st.Valid) (hp : st.buf.take st.num_init = p.map some)
    (hpull : pulls step st.iter (N - st.num_init) = (xs, s', true)) :
    nextTr step st = List.range' (st.num_init + 1) xs.length ++ [0] := by
  have hxs : xs.length = N - st.num_init := pulls_full_length hpull
  have hsl : slice_assume_init (writeAll st.buf st.num_init xs) = some (p ++ xs) := by
    rw [writeAll_full_map_some hv hp hxs, slice_assume_init_map_some]
  simp [nextTr, fillFromTr_eq, fillFrom_eq_pulls, hpull, hsl]

theorem nextTr_eq_not_full {step : Iter σ T} {st : ArrayChunks σ T N} {xs : List T}
    {s' : σ} (hpull : pulls step st.iter (N - st.num_init) = (xs, s', false)) :
    nextTr step st = List.range' (st.num_init + 1) xs.length := by
  simp [nextTr, fillFromTr_eq, fillFrom_eq_pulls, hpull]

theorem pulls_countStep (step : Iter σ T) :
    ∀ (k : Nat) (s : σ) (c : Nat),
      pulls (countStep step) (s, c) k =
        ((pulls step s k).1,
         ((pulls step s k).2.1,
          c + (pulls step s k).1.length +
            (if (pulls step s k).2.2 then 0 else 1)),
         (pulls step s k).2.2) := by
  intro k
  induction k with
  | zero => intro s c; simp [pulls_zero]
  | succ k ih =>
    intro s c
    rcases hs : step s with ⟨o, s'⟩
    have hcs : countStep step (s, c) = (o, (s', c + 1)) := by simp [countStep, hs]
    cases o with
    | none =>
      rw [pulls_succ_none hcs, pulls_succ_none hs]
      simp
    | some x =>
      rw [pulls_succ_some hcs, pulls_succ_some hs, ih s' (c + 1)]
      have harith : c + 1 + (pulls step s' k).1.length =
          c + ((pulls step s' k).1.length + 1) := by omega
      simp [harith]

/-! ## The list source, and iterating the adapter to exhaustion -/

theorem pulls_listStep_of_le {k : Nat} :
    ∀ {l : List T}, k ≤ l.length →
      pulls listStep l k = (l.take k, l.drop k, true) := by
  induction k with
  | zero => intro l _; simp [pulls_zero]
  | succ k ih =>
    intro l h
    cases l with
    | nil => simp at h
    | cons x xs =>
      have hs : listStep (x :: xs) = (some x, xs) := rfl
      have hk : k ≤ xs.length := by simp at h; omega
      rw [pulls_succ_some hs, ih hk]
      simp

theorem pulls_listStep_of_gt {k : Nat} :
    ∀ {l : List T}, l.length < k → pulls listStep l k = (l, [], false) := by
  induction k with
  | zero => intro l h; exact absurd h (Nat.not_lt_zero _)
  | succ k ih =>
    intro l h
    cases l with
    | nil =>
      have hs : listStep ([] : List T) = (none, []) := rfl
      rw [pulls_succ_none hs]
    | cons x xs =>
      have hs : listStep (x :: xs) = (some x, xs) := rfl
      have hk : xs.length < k := by simp at h; omega
      rw [pulls_succ_some hs, ih hk]

theorem take_writeAll_eq_map {st : ArrayChunks σ T N} {p : List T} (xs : List T)
    (hv : st.Valid) (hp : st.buf.take st.num_init = p.map some)
    (hle : st.num_init + xs.length ≤ N) :
    (writeAll st.buf st.num_init xs).take (st.num_init + xs.length) =
      (p ++ xs).map some := by
  rw [take_writeAll xs st.buf st.num_init (by rw [hv.1]; omega), hp]
  simp

theorem valid_extend {st : ArrayChunks σ T N} {p : List T} (xs : List T) (s' : σ)
    (hv : st.Valid) (hp : st.buf.take st.num_init = p.map some)
    (hle : st.num_init + xs.length ≤ N) :
    (⟨s', writeAll st.buf st.num_init xs, st.num_init + xs.length⟩ :
      ArrayChunks σ T N).Valid := by
  refine ⟨by simp [writeAll_length, hv.1], hle, ?_⟩
  show ∀ o ∈ (writeAll st.buf st.num_init xs).take (st.num_init + xs.length),
    o.isSome = true
  rw [take_writeAll_eq_map xs hv hp hle]
  intro o ho
  obtain ⟨x, _, rfl⟩ := List.mem_map.mp ho
  rfl

theorem run_listStep_spec {N : Nat} (hN : 1 ≤ N) :
    ∀ (fuel : Nat) (st : ArrayChunks (List T) T N) (p : List T),
      st.Valid → st.buf.take st.num_init = p.map some → st.num_init = p.length →
      st.num_init < N → st.iter.length + 1 ≤ fuel →
      (run listStep fuel st).1.length = (p.length + st.iter.length) / N ∧
      (∀ g ∈ (run listStep fuel st).1, g.length = N) ∧
      (run listStep fuel st).2.Valid ∧
      (run listStep fuel st).2.iter = [] ∧
      ∃ q : List T,
        (run listStep fuel st).2.buf.take (run listStep fuel st).2.num_init =
          q.map some ∧
        (run listStep fuel st).2.num_init = q.length ∧
        q.length = (p.length + st.iter.length) % N ∧
        (run listStep fuel st).1.flatten ++ q = p ++ st.iter := by
  intro fuel
  induction fuel with
  | zero => intro st p _ _ _ _ hfuel; omega
  | succ fuel ih =>
    intro st p hv hp hplen hlt hfuel
    by_cases hk : N - st.num_init ≤ st.iter.length
    · -- the buffer fills: a chunk is emitted and the run continues
      have hpull : pulls listStep st.iter (N - st.num_init) =
          (st.iter.take (N - st.num_init), st.iter.drop (N - st.num_init), true) :=
        pulls_listStep_of_le hk
      have hnext := next_eq_of_full hv hp hpull
      have hrun : run listStep (fuel + 1) st =
          ((p ++ st.iter.take (N - st.num_init)) ::
             (run listStep fuel
               (⟨st.iter.drop (N - st.num_init),
                 writeAll st.buf st.num_init (st.iter.take (N - st.num_init)),
                 0⟩ : ArrayChunks (List T) T N)).1,
           (run listStep fuel
             (⟨st.iter.drop (N - st.num_init),
               writeAll st.buf st.num_init (st.iter.take (N - st.num_init)),
               0⟩ : ArrayChunks (List T) T N)).2) := by
        simp [run, hnext]
      have hvalid2 : (⟨st.iter.drop (N - st.num_init),
          writeAll st.buf st.num_init (st.iter.take (N - st.num_init)),
          0⟩ : ArrayChunks (List T) T N).Valid := by
        refine ⟨by simp [writeAll_length, hv.1], Nat.zero_le N, ?_⟩
        simp
      have hdlen : (st.iter.drop (N - st.num_init)).length =
          st.iter.length - (N - st.num_init) := by simp
      have ihres := ih (⟨st.iter.drop (N - st.num_init),
          writeAll st.buf st.num_init (st.iter.take (N - st.num_init)),
          0⟩ : ArrayChunks (List T) T N) [] hvalid2 (by simp) rfl
        (by show 0 < N; omega) (by simp; omega)
      obtain ⟨ih1, ih2, ih3, ih4, q, ihq1, ihq2, ihq3, ihq4⟩ := ihres
      simp only [List.length_nil, Nat.zero_add, List.nil_append, List.length_drop]
        at ih1 ihq3 ihq4
      have htklen : (st.iter.take (N - st.num_init)).length = N - st.num_init := by
        simp; omega
      have harith : p.length + st.iter.length =
          (st.iter.length - (N - st.num_init)) + N := by omega
      rw [hrun]
      refine ⟨?_, ?_, ih3, ih4, q, ihq1, ihq2, ?_, ?_⟩
      · simp only [List.length_cons, ih1]
        rw [harith, Nat.add_div_right _ (by omega)]
      · intro g hg
        rcases List.mem_cons.mp hg with hg | hg
        · rw [hg]
          simp [htklen]
          omega
        · exact ih2 g hg
      · rw [harith, Nat.add_mod_right]
        exact ihq3
      · simp only [List.flatten_cons, List.append_assoc, ihq4]
        simp
    · -- the source runs dry first: no chunk, partial prefix retained
      push_neg at hk
      have hpull : pulls listStep st.iter (N - st.num_init) =
          (st.iter, [], false) := pulls_listStep_of_gt hk
      have hnext := next_eq_of_not_full hpull
      have hrun : run listStep (fuel + 1) st =
          ([], (⟨[], writeAll st.buf st.num_init st.iter,
                 st.num_init + st.iter.length⟩ : ArrayChunks (List T) T N)) := by
        simp [run, hnext]
      have hni : st.num_init + st.iter.length < N := by omega
      rw [hrun]
      refine ⟨?_, by simp, valid_extend st.iter [] hv hp (by omega), rfl,
        p ++ st.iter, ?_, ?_, ?_, ?_⟩
      · simp [Nat.div_eq_of_lt (by omega : p.length + st.iter.length < N)]
      · exact take_writeAll_eq_map st.iter hv hp (by omega)
      · simp [hplen]
      · simp [Nat.mod_eq_of_lt (by omega : p.length + st.iter.length < N)]
      · simp

/-! ## The claims -/

/-- C1: for every `N ≥ 1` and every finite source sequence `l` (a source that yields
`l`'s values in order and then reports exhaustion permanently), iterating the adapter
to exhaustion via `next` yields exactly `l.length / N` full chunks of `N` elements
each, the final `remainder` view has length `l.length % N`, and the concatenation of
all produced chunks in order followed by the final remainder equals `l`. -/
theorem claim_C1 {T : Type} (N : Nat) (hN : 1 ≤ N) (l : List T) :
    (run listStep (l.length + 1) (ArrayChunks.new N l)).1.length = l.length / N ∧
    (∀ g ∈ (run listStep (l.length + 1) (ArrayChunks.new N l)).1, g.length = N) ∧
    ∃ q : List T,
      (run listStep (l.length + 1) (ArrayChunks.new N l)).2.remainder = some q ∧
      q.length = l.length % N ∧
      (run listStep (l.length + 1) (ArrayChunks.new N l)).1.flatten ++ q = l := by
  have h := run_listStep_spec hN (l.length + 1) (ArrayChunks.new N l) []
    (valid_new l) (by simp [ArrayChunks.new]) rfl (by show 0 < N; omega)
    (Nat.le_refl _)
  obtain ⟨h1, h2, _, _, q, hq1, hq2, hq3, hq4⟩ := h
  simp only [show (ArrayChunks.new (T := T) N l).iter = l from rfl, List.length_nil,
    Nat.zero_add, List.nil_append] at h1 hq3 hq4
  refine ⟨h1, h2, q, ?_, hq3, hq4⟩
  show slice_assume_init _ = some q
  rw [hq1, slice_assume_init_map_some]

/-- Witness for C1: the spec's literal end-to-end example, input `1..=7` with `N = 3`:
two full chunks and remainder of length 1, reassembling to the input. -/
theorem claim_C1_witness :
    (run listStep ([1, 2, 3, 4, 5, 6, 7].length + 1)
        (ArrayChunks.new (T := Nat) 3 [1, 2, 3, 4, 5, 6, 7])).1.length =
      [1, 2, 3, 4, 5, 6, 7].length / 3 ∧
    (∀ g ∈ (run listStep ([1, 2, 3, 4, 5, 6, 7].length + 1)
        (ArrayChunks.new (T := Nat) 3 [1, 2, 3, 4, 5, 6, 7])).1, g.length = 3) ∧
    ∃ q : List Nat,
      (run listStep ([1, 2, 3, 4, 5, 6, 7].length + 1)
          (ArrayChunks.new (T := Nat) 3 [1, 2, 3, 4, 5, 6, 7])).2.remainder =
        some q ∧
      q.length = [1, 2, 3, 4, 5, 6, 7].length % 3 ∧
      (run listStep ([1, 2, 3, 4, 5, 6, 7].length + 1)
          (ArrayChunks.new (T := Nat) 3 [1, 2, 3, 4, 5, 6, 7])).1.flatten ++ q =
        [1, 2, 3, 4, 5, 6, 7] :=
  claim_C1 3 (by decide) [1, 2, 3, 4, 5, 6, 7]

/-- C5: for `N = 0`, every `next` call immediately returns an empty chunk (never "no
further chunk") and leaves the adapter — including the wrapped source — exactly as it
was; since the right-hand side does not mention `step` at all, the source is never
consulted by any such call. -/
theorem claim_C5 {σ T : Type} (st : ArrayChunks σ T 0) (hv : st.Valid) :
    ∀ step : Iter σ T, ArrayChunks.next step st = (some [], st) := by
  intro step
  obtain ⟨it, buf, ni⟩ := st
  have hbuf : buf = [] := List.length_eq_zero.mp hv.1
  have hni : ni = 0 := Nat.le_zero.mp hv.2.1
  subst hbuf hni
  simp [ArrayChunks.next, fillFrom, slice_assume_init]

/-- Witness for C5 at a concrete source: a fresh `N = 0` adapter over the list
source `[5, 6]` yields an empty chunk and is left untouched. -/
theorem claim_C5_witness :
    ArrayChunks.next listStep (ArrayChunks.new (T := Nat) 0 [5, 6]) =
      (some [], ArrayChunks.new (T := Nat) 0 [5, 6]) :=
  claim_C5 (ArrayChunks.new 0 [5, 6]) (by decide) listStep

/-- C2: at every externally observable point (each reachable state), `num_init` is in
`[0, N]`, the buffer has exactly `N` slots and the slots below `num_init` hold live
values; during a `next` call the values taken by `num_init` (its trace) stay in
`[0, N]` and change only by increments of one after a slot is filled — ending with a
reset to 0 in the same step that transfers all `N` values out exactly when a full
chunk is produced; and `remainder` never reads slots at index `≥ num_init` (it depends
only on the occupied prefix). -/
theorem claim_C2 {σ T : Type} {N : Nat} (step : Iter σ T) (st : ArrayChunks σ T N)
    (hr : Reachable step st) :
    (st.buf.length = N ∧ st.num_init ≤ N ∧
      ∀ o ∈ st.buf.take st.num_init, o.isSome = true) ∧
    (∀ c ∈ nextTr step st, c ≤ N) ∧
    (∀ (g : List T) (st' : ArrayChunks σ T N),
      ArrayChunks.next step st = (some g, st') →
      g.length = N ∧ st'.num_init = 0 ∧
      nextTr step st = List.range' (st.num_init + 1) (N - st.num_init) ++ [0]) ∧
    (∀ st' : ArrayChunks σ T N, ArrayChunks.next step st = (none, st') →
      st.num_init ≤ st'.num_init ∧ st'.num_init < N ∧
      nextTr step st = List.range' (st.num_init + 1) (st'.num_init - st.num_init)) ∧
    (∀ st₂ : ArrayChunks σ T N, st₂.num_init = st.num_init →
      st₂.buf.take st₂.num_init = st.buf.take st.num_init →
      ArrayChunks.remainder st₂ = ArrayChunks.remainder st) := by
  obtain ⟨hv, _⟩ := reachable_valid hr
  obtain ⟨p, hp, hplen⟩ := valid_take_exists hv
  have hframe : ∀ st₂ : ArrayChunks σ T N, st₂.num_init = st.num_init →
      st₂.buf.take st₂.num_init = st.buf.take st.num_init →
      ArrayChunks.remainder st₂ = ArrayChunks.remainder st := by
    intro st₂ _ h2
    show slice_assume_init _ = slice_assume_init _
    rw [h2]
  rcases hpull : pulls step st.iter (N - st.num_init) with ⟨xs, s', full⟩
  cases full with
  | true =>
    have hnext := next_eq_of_full hv hp hpull
    have htr := nextTr_eq_full hv hp hpull
    have hxs : xs.length = N - st.num_init := pulls_full_length hpull
    refine ⟨hv, ?_, ?_, ?_, hframe⟩
    · intro c hc
      rw [htr] at hc
      rcases List.mem_append.mp hc with hc | hc
      · have := List.mem_range'_1.mp hc
        omega
      · simp at hc
        omega
    · intro g st' h
      rw [hnext] at h
      simp only [Prod.mk.injEq, Option.some.injEq] at h
      obtain ⟨rfl, rfl⟩ := h
      refine ⟨?_, rfl, by rw [htr, hxs]⟩
      have h1 := hv.2.1
      rw [List.length_append]
      omega
    · intro st' h
      rw [hnext] at h
      simp at h
  | false =>
    have hnext := next_eq_of_not_full hpull
    have htr := nextTr_eq_not_full hpull
    have hlt : xs.length < N - st.num_init := pulls_len_lt_of_not_full hpull
    refine ⟨hv, ?_, ?_, ?_, hframe⟩
    · intro c hc
      rw [htr] at hc
      have := List.mem_range'_1.mp hc
      have := hv.2.1
      omega
    · intro g st' h
      rw [hnext] at h
      simp at h
    · intro st' h
      rw [hnext] at h
      simp only [Prod.mk.injEq] at h
      obtain ⟨-, rfl⟩ := h
      refine ⟨by simp, by simp; omega, ?_⟩
      rw [htr]
      simp

/-- Witness for C2 at a concrete reachable state: a fresh adapter with `N = 2` over
the non-fused toggle source. -/
theorem claim_C2_witness :
    ((ArrayChunks.new (T := Nat) 2 (false, 0)).buf.length = 2 ∧
      (ArrayChunks.new (T := Nat) 2 (false, 0)).num_init ≤ 2 ∧
      ∀ o ∈ (ArrayChunks.new (T := Nat) 2 (false, 0)).buf.take
          (ArrayChunks.new (T := Nat) 2 (false, 0)).num_init, o.isSome = true) ∧
    (∀ c ∈ nextTr toggleStep (ArrayChunks.new (T := Nat) 2 (false, 0)), c ≤ 2) ∧
    (∀ (g : List Nat) (st' : ArrayChunks (Bool × Nat) Nat 2),
      ArrayChunks.next toggleStep (ArrayChunks.new (T := Nat) 2 (false, 0)) =
        (some g, st') →
      g.length = 2 ∧ st'.num_init = 0 ∧
      nextTr toggleStep (ArrayChunks.new (T := Nat) 2 (false, 0)) =
        List.range' ((ArrayChunks.new (T := Nat) 2 (false, 0)).num_init + 1)
          (2 - (ArrayChunks.new (T := Nat) 2 (false, 0)).num_init) ++ [0]) ∧
    (∀ st' : ArrayChunks (Bool × Nat) Nat 2,
      ArrayChunks.next toggleStep (ArrayChunks.new (T := Nat) 2 (false, 0)) =
        (none, st') →
      (ArrayChunks.new (T := Nat) 2 (false, 0)).num_init ≤ st'.num_init ∧
      st'.num_init < 2 ∧
      nextTr toggleStep (ArrayChunks.new (T := Nat) 2 (false, 0)) =
        List.range' ((ArrayChunks.new (T := Nat) 2 (false, 0)).num_init + 1)
          (st'.num_init - (ArrayChunks.new (T := Nat) 2 (false, 0)).num_init)) ∧
    (∀ st₂ : ArrayChunks (Bool × Nat) Nat 2,
      st₂.num_init = (ArrayChunks.new (T := Nat) 2 (false, 0)).num_init →
      st₂.buf.take st₂.num_init =
        (ArrayChunks.new (T := Nat) 2 (false, 0)).buf.take
          (ArrayChunks.new (T := Nat) 2 (false, 0)).num_init →
      ArrayChunks.remainder st₂ =
        ArrayChunks.remainder (ArrayChunks.new (T := Nat) 2 (false, 0))) :=
  claim_C2 toggleStep (ArrayChunks.new 2 (false, 0)) (Reachable.new (false, 0))

theorem take_set_le {α : Type} (a : α) {n m : Nat} (l : List α) (h : m ≤ n) :
    (l.set n a).take m = l.take m := by
  rcases Nat.eq_or_lt_of_le h with rfl | hlt
  · apply List.ext_getElem?
    intro i
    rw [List.getElem?_take, List.getElem?_take]
    split
    · next h' => rw [List.getElem?_set_ne (by omega)]
    · rfl
  · exact List.take_set_of_lt a l hlt

theorem take_writeAll_front (xs : List T) :
    ∀ (buf : List (Option T)) (i j : Nat), j ≤ i →
      (writeAll buf i xs).take j = buf.take j := by
  induction xs with
  | nil => intro buf i j _; rfl
  | cons x xs ih =>
    intro buf i j hj
    show (writeAll (buf.set i (some x)) (i + 1) xs).take j = _
    rw [ih (buf.set i (some x)) (i + 1) j (by omega), take_set_le (some x) buf hj]

/-- C3: when the source reports exhaustion before all `N` slots fill, `next` returns
no chunk, the occupied prefix accumulated so far is left intact (not discarded) and
only grows, and a later call that does produce a chunk resumes from that prefix (the
chunk begins with it). In particular, over the non-fused source "yield 1, exhaustion,
yield 2, exhaustion, yield 3, yield 4, exhaustion, …" with `N = 2`: the first call
returns no chunk with remainder `[1]`, the second returns chunk `[1, 2]` with
remainder `[]`, and the pattern repeats for `[3, 4]`. -/
theorem claim_C3 {σ T : Type} {N : Nat} (step : Iter σ T) (st : ArrayChunks σ T N)
    (hv : st.Valid) :
    (∀ st' : ArrayChunks σ T N, ArrayChunks.next step st = (none, st') →
      st'.buf.take st.num_init = st.buf.take st.num_init ∧
      st.num_init ≤ st'.num_init ∧
      ∀ (g : List T) (st'' : ArrayChunks σ T N) (q : List T),
        ArrayChunks.next step st' = (some g, st'') →
        st'.buf.take st'.num_init = q.map some →
        g.take q.length = q) ∧
    ((ArrayChunks.next toggleStep
        (stepN toggleStep 0 (ArrayChunks.new (T := Nat) 2 (false, 0)))).1 = none ∧
      (stepN toggleStep 1 (ArrayChunks.new (T := Nat) 2 (false, 0))).remainder =
        some [1] ∧
      (ArrayChunks.next toggleStep
        (stepN toggleStep 1 (ArrayChunks.new (T := Nat) 2 (false, 0)))).1 =
        some [1, 2] ∧
      (stepN toggleStep 2 (ArrayChunks.new (T := Nat) 2 (false, 0))).remainder =
        some [] ∧
      (ArrayChunks.next toggleStep
        (stepN toggleStep 2 (ArrayChunks.new (T := Nat) 2 (false, 0)))).1 = none ∧
      (stepN toggleStep 3 (ArrayChunks.new (T := Nat) 2 (false, 0))).remainder =
        some [] ∧
      (ArrayChunks.next toggleStep
        (stepN toggleStep 3 (ArrayChunks.new (T := Nat) 2 (false, 0)))).1 = none ∧
      (stepN toggleStep 4 (ArrayChunks.new (T := Nat) 2 (false, 0))).remainder =
        some [3] ∧
      (ArrayChunks.next toggleStep
        (stepN toggleStep 4 (ArrayChunks.new (T := Nat) 2 (false, 0)))).1 =
        some [3, 4] ∧
      (stepN toggleStep 5 (ArrayChunks.new (T := Nat) 2 (false, 0))).remainder =
        some []) := by
  refine ⟨?_, by decide⟩
  intro st' h
  obtain ⟨p, hp, hplen⟩ := valid_take_exists hv
  rcases hpull : pulls step st.iter (N - st.num_init) with ⟨xs, s', full⟩
  cases full with
  | true =>
    rw [next_eq_of_full hv hp hpull] at h
    simp at h
  | false =>
    have hlt := pulls_len_lt_of_not_full hpull
    rw [next_eq_of_not_full hpull] at h
    simp only [Prod.mk.injEq] at h
    obtain ⟨-, rfl⟩ := h
    refine ⟨?_, by simp, ?_⟩
    · show (writeAll st.buf st.num_init xs).take st.num_init = _
      exact take_writeAll_front xs st.buf st.num_init st.num_init (Nat.le_refl _)
    · intro g st'' q h2 hq
      have hle2 : st.num_init + xs.length ≤ N := by omega
      have hv' := valid_extend xs s' hv hp hle2
      rcases hpull2 : pulls step
          ((⟨s', writeAll st.buf st.num_init xs, st.num_init + xs.length⟩ :
            ArrayChunks σ T N)).iter
          (N - ((⟨s', writeAll st.buf st.num_init xs, st.num_init + xs.length⟩ :
            ArrayChunks σ T N)).num_init) with ⟨ys, s₂, full2⟩
      cases full2 with
      | false =>
        rw [next_eq_of_not_full hpull2] at h2
        simp at h2
      | true =>
        rw [next_eq_of_full hv' hq hpull2] at h2
        simp only [Prod.mk.injEq, Option.some.injEq] at h2
        obtain ⟨rfl, -⟩ := h2
        exact List.take_left q ys

/-- Witness for C3: the concrete non-fused-source scenario of the claim, extracted
from the theorem applied to the fresh `N = 2` adapter over the toggle source. -/
theorem claim_C3_witness :
    (ArrayChunks.next toggleStep
        (stepN toggleStep 0 (ArrayChunks.new (T := Nat) 2 (false, 0)))).1 = none ∧
    (stepN toggleStep 1 (ArrayChunks.new (T := Nat) 2 (false, 0))).remainder =
      some [1] ∧
    (ArrayChunks.next toggleStep
        (stepN toggleStep 1 (ArrayChunks.new (T := Nat) 2 (false, 0)))).1 =
      some [1, 2] ∧
    (stepN toggleStep 2 (ArrayChunks.new (T := Nat) 2 (false, 0))).remainder =
      some [] ∧
    (ArrayChunks.next toggleStep
        (stepN toggleStep 2 (ArrayChunks.new (T := Nat) 2 (false, 0)))).1 = none ∧
    (stepN toggleStep 3 (ArrayChunks.new (T := Nat) 2 (false, 0))).remainder =
      some [] ∧
    (ArrayChunks.next toggleStep
        (stepN toggleStep 3 (ArrayChunks.new (T := Nat) 2 (false, 0)))).1 = none ∧
    (stepN toggleStep 4 (ArrayChunks.new (T := Nat) 2 (false, 0))).remainder =
      some [3] ∧
    (ArrayChunks.next toggleStep
        (stepN toggleStep 4 (ArrayChunks.new (T := Nat) 2 (false, 0)))).1 =
      some [3, 4] ∧
    (stepN toggleStep 5 (ArrayChunks.new (T := Nat) 2 (false, 0))).remainder =
      some [] :=
  (claim_C3 toggleStep (ArrayChunks.new 2 (false, 0)) (by decide)).2

/-- C4: destroying the adapter in any reachable state releases exactly the first
`num_init` live elements (the occupied prefix, each exactly once, in order), and the
destructor never reads a slot at index `≥ num_init`: what it releases depends only on
the occupied prefix. -/
theorem claim_C4 {σ T : Type} {N : Nat} (step : Iter σ T) (st : ArrayChunks σ T N)
    (hr : Reachable step st) :
    (∃ l : List T, ArrayChunks.dropReleased st = some l ∧
      l.length = st.num_init ∧ st.buf.take st.num_init = l.map some) ∧
    (∀ st₂ : ArrayChunks σ T N, st₂.num_init = st.num_init →
      st₂.buf.take st₂.num_init = st.buf.take st.num_init →
      ArrayChunks.dropReleased st₂ = ArrayChunks.dropReleased st) := by
  obtain ⟨hv, -⟩ := reachable_valid hr
  obtain ⟨p, hp, hplen⟩ := valid_take_exists hv
  refine ⟨⟨p, ?_, hplen, hp⟩, ?_⟩
  · show slice_assume_init _ = _
    rw [hp, slice_assume_init_map_some]
  · intro st₂ _ h2
    show slice_assume_init _ = slice_assume_init _
    rw [h2]

/-- Witness for C4 at the reachable state holding the partial prefix `[1]` (after one
`next` call over the toggle source with `N = 2`). -/
theorem claim_C4_witness :
    (∃ l : List Nat,
      ArrayChunks.dropReleased
        (ArrayChunks.next toggleStep (ArrayChunks.new (T := Nat) 2 (false, 0))).2 =
        some l ∧
      l.length =
        (ArrayChunks.next toggleStep
          (ArrayChunks.new (T := Nat) 2 (false, 0))).2.num_init ∧
      (ArrayChunks.next toggleStep
          (ArrayChunks.new (T := Nat) 2 (false, 0))).2.buf.take
        (ArrayChunks.next toggleStep
          (ArrayChunks.new (T := Nat) 2 (false, 0))).2.num_init = l.map some) ∧
    (∀ st₂ : ArrayChunks (Bool × Nat) Nat 2,
      st₂.num_init =
        (ArrayChunks.next toggleStep
          (ArrayChunks.new (T := Nat) 2 (false, 0))).2.num_init →
      st₂.buf.take st₂.num_init =
        (ArrayChunks.next toggleStep
            (ArrayChunks.new (T := Nat) 2 (false, 0))).2.buf.take
          (ArrayChunks.next toggleStep
            (ArrayChunks.new (T := Nat) 2 (false, 0))).2.num_init →
      ArrayChunks.dropReleased st₂ =
        ArrayChunks.dropReleased
          (ArrayChunks.next toggleStep
            (ArrayChunks.new (T := Nat) 2 (false, 0))).2) :=
  claim_C4 toggleStep (ArrayChunks.next toggleStep (ArrayChunks.new 2 (false, 0))).2
    (Reachable.next (ArrayChunks.new 2 (false, 0)) (Reachable.new (false, 0)))

/-- Counterexample to C6 as stated: the claim asserts every operation is total for
every group size `N` *including `N = 0`*, and that `SizeEstimate` never faults on its
arithmetic. But `size_hint` computes `… / N` with no zero check, so for `N = 0` it
divides by zero — a Rust panic, modelled here by `none` — already on a freshly
constructed adapter. -/
theorem claim_C6_counterexample :
    (ArrayChunks.new (T := Nat) 0 ([] : List Nat)).size_hint (0, some 0) = none := by
  decide

/-- C6 (amended): on every reachable state, `Remainder` and `Destroy` perform no
invalid read and `ProduceNextGroup` never performs an invalid read, for every `N`
including `N = 0`; `SizeEstimate` is total and never faults on its arithmetic for
every `N ≥ 1` (it saturates, or reports an unknown upper bound, on `usize`
overflow), but for `N = 0` it faults with a division by zero. -/
theorem claim_C6_amended {σ T : Type} {N : Nat} (step : Iter σ T)
    (st : ArrayChunks σ T N) (hr : Reachable step st) (srcHint : Nat × Option Nat) :
    (1 ≤ N → ∃ r : Nat × Option Nat, st.size_hint srcHint = some r) ∧
    (N = 0 → st.size_hint srcHint = none) ∧
    (∃ l : List T, st.remainder = some l) ∧
    (∃ l : List T, st.dropReleased = some l) ∧
    nextNoUB step st := by
  obtain ⟨hv, -⟩ := reachable_valid hr
  obtain ⟨p, hp, hplen⟩ := valid_take_exists hv
  refine ⟨?_, ?_, ⟨p, ?_⟩, ⟨p, ?_⟩, ?_⟩
  · intro hN
    have hne : ¬ N = 0 := by omega
    rcases srcHint with ⟨mi, ma⟩
    cases ma with
    | none =>
      exact ⟨(saturating_add mi st.num_init / N, none),
        by simp [ArrayChunks.size_hint, rustDiv, hne]⟩
    | some m =>
      rcases hca : checked_add m st.num_init with _ | s
      · exact ⟨(saturating_add mi st.num_init / N, none),
          by simp [ArrayChunks.size_hint, rustDiv, hne, hca]⟩
      · exact ⟨(saturating_add mi st.num_init / N, some (s / N)),
          by simp [ArrayChunks.size_hint, rustDiv, hne, hca]⟩
  · intro h0
    simp [ArrayChunks.size_hint, rustDiv, h0]
  · show slice_assume_init _ = _
    rw [hp, slice_assume_init_map_some]
  · show slice_assume_init _ = _
    rw [hp, slice_assume_init_map_some]
  · intro s' buf' i' h
    rcases hpull : pulls step st.iter (N - st.num_init) with ⟨xs, s₂, full⟩
    rw [fillFrom_eq_pulls, hpull] at h
    simp only [Prod.mk.injEq] at h
    obtain ⟨h1, h2, h3, h4⟩ := h
    subst h4
    have hxs : xs.length = N - st.num_init := pulls_full_length hpull
    rw [← h2, writeAll_full_map_some hv hp hxs, slice_assume_init_map_some]
    rfl

/-- Witness for C6 (amended) at `N = 3` over the one-element list source. -/
theorem claim_C6_amended_witness :
    (1 ≤ 3 → ∃ r : Nat × Option Nat,
      (ArrayChunks.new (T := Nat) 3 [9]).size_hint (1, some 1) = some r) ∧
    (3 = 0 → (ArrayChunks.new (T := Nat) 3 [9]).size_hint (1, some 1) = none) ∧
    (∃ l : List Nat, (ArrayChunks.new (T := Nat) 3 [9]).remainder = some l) ∧
    (∃ l : List Nat, (ArrayChunks.new (T := Nat) 3 [9]).dropReleased = some l) ∧
    nextNoUB listStep (ArrayChunks.new (T := Nat) 3 [9]) :=
  claim_C6_amended listStep (ArrayChunks.new 3 [9]) (Reachable.new [9]) (1, some 1)

/-- Counterexample to C7 as stated: the claim asserts the upper bound is
`(max_items + occupied_count) / N` whenever the source provides an upper bound. But
`size_hint` uses `checked_add`, so when `max_items + occupied_count` overflows
`usize` the adapter reports an *unknown* upper bound instead. Concretely: after one
`next` call on a fresh `N = 3` adapter over the one-element list source (a reachable
state with `occupied_count = 1`), a source hint of `(usize::MAX, Some(usize::MAX))`
yields an unknown upper bound, not `(usize::MAX + 1) / 3`. -/
theorem claim_C7_counterexample :
    ArrayChunks.size_hint
        (ArrayChunks.next listStep (ArrayChunks.new (T := Nat) 3 [9])).2
        (USIZE_MAX, some USIZE_MAX) ≠
      some (claimedSizeHint 3
        (ArrayChunks.next listStep (ArrayChunks.new (T := Nat) 3 [9])).2.num_init
        (USIZE_MAX, some USIZE_MAX)) := by
  decide

/-- C7 (amended): for every adapter with `N ≥ 1`, `size_hint` returns exactly
lower bound `(min_items + occupied_count) / N` computed with saturating addition,
and upper bound `(max_items + occupied_count) / N` when the source provides
`max_items` *and the addition does not overflow `usize`* (`checked_add`), otherwise
an unknown upper bound. -/
theorem claim_C7_amended {σ T : Type} {N : Nat} (hN : 1 ≤ N)
    (st : ArrayChunks σ T N) (srcHint : Nat × Option Nat) :
    st.size_hint srcHint =
      some (saturating_add srcHint.1 st.num_init / N,
        srcHint.2.bind fun m =>
          (checked_add m st.num_init).map fun s => s / N) := by
  rcases srcHint with ⟨mi, ma⟩
  have hne : ¬ N = 0 := by omega
  cases ma with
  | none => simp [ArrayChunks.size_hint, rustDiv, hne]
  | some m =>
    rcases hca : checked_add m st.num_init with _ | s
    · simp [ArrayChunks.size_hint, rustDiv, hne, hca]
    · simp [ArrayChunks.size_hint, rustDiv, hne, hca]

/-- Witness for C7 (amended): the spec's size-estimate example — a source of exactly
7 known items chunked with `N = 3` reports `(2, 2)` before any production and
`(1, 1)` after one chunk is produced (the source then holds 4 items). -/
theorem claim_C7_amended_witness :
    ArrayChunks.size_hint (ArrayChunks.new (T := Nat) 3 (List.range 7)) (7, some 7) =
      some (2, some 2) ∧
    ArrayChunks.size_hint
        (ArrayChunks.next listStep (ArrayChunks.new (T := Nat) 3 (List.range 7))).2
        (4, some 4) =
      some (1, some 1) :=
  ⟨(claim_C7_amended (by decide) (ArrayChunks.new 3 (List.range 7))
      (7, some 7)).trans (by decide),
   (claim_C7_amended (by decide)
      (ArrayChunks.next listStep (ArrayChunks.new (T := Nat) 3 (List.range 7))).2
      (4, some 4)).trans (by decide)⟩

/-- C8: `remainder` returns a view of exactly the first `num_init` buffer slots; it
is empty immediately after construction and immediately after any chunk emission, and
non-empty only once a fill has started (`num_init > 0`) but not completed
(`num_init < N`). -/
theorem claim_C8 {σ T : Type} {N : Nat} (step : Iter σ T) (st : ArrayChunks σ T N)
    (hr : Reachable step st) :
    (∃ p : List T, st.remainder = some p ∧ p.length = st.num_init ∧
      st.buf.take st.num_init = p.map some) ∧
    (∀ it : σ, (ArrayChunks.new (T := T) N it).remainder = some []) ∧
    (∀ (g : List T) (st' : ArrayChunks σ T N),
      ArrayChunks.next step st = (some g, st') →
      ArrayChunks.remainder st' = some []) ∧
    (st.remainder ≠ some [] → 0 < st.num_init ∧ st.num_init < N) := by
  obtain ⟨hv, hz⟩ := reachable_valid hr
  obtain ⟨p, hp, hplen⟩ := valid_take_exists hv
  have hrem : st.remainder = some p := by
    show slice_assume_init _ = _
    rw [hp, slice_assume_init_map_some]
  refine ⟨⟨p, hrem, hplen, hp⟩, ?_, ?_, ?_⟩
  · intro it
    rfl
  · intro g st' h
    rcases hpull : pulls step st.iter (N - st.num_init) with ⟨xs, s', full⟩
    cases full with
    | false =>
      rw [next_eq_of_not_full hpull] at h
      simp at h
    | true =>
      rw [next_eq_of_full hv hp hpull] at h
      simp only [Prod.mk.injEq, Option.some.injEq] at h
      obtain ⟨-, rfl⟩ := h
      rfl
  · intro hne
    have hp0 : p ≠ [] := by
      intro hcon
      rw [hcon] at hrem
      exact hne hrem
    have hpos : 0 < p.length := List.length_pos.mpr hp0
    refine ⟨by omega, ?_⟩
    rcases hz with hz | hz
    · omega
    · exact hz

/-- Witness for C8 at the reachable state with remainder `[1]` (after one `next`
call over the toggle source with `N = 2`). -/
theorem claim_C8_witness :
    (∃ p : List Nat,
      (ArrayChunks.next toggleStep
          (ArrayChunks.new (T := Nat) 2 (false, 0))).2.remainder = some p ∧
      p.length =
        (ArrayChunks.next toggleStep
          (ArrayChunks.new (T := Nat) 2 (false, 0))).2.num_init ∧
      (ArrayChunks.next toggleStep
          (ArrayChunks.new (T := Nat) 2 (false, 0))).2.buf.take
        (ArrayChunks.next toggleStep
          (ArrayChunks.new (T := Nat) 2 (false, 0))).2.num_init = p.map some) ∧
    (∀ it : Bool × Nat, (ArrayChunks.new (T := Nat) 2 it).remainder = some []) ∧
    (∀ (g : List Nat) (st' : ArrayChunks (Bool × Nat) Nat 2),
      ArrayChunks.next toggleStep
          (ArrayChunks.next toggleStep
            (ArrayChunks.new (T := Nat) 2 (false, 0))).2 = (some g, st') →
      ArrayChunks.remainder st' = some []) ∧
    ((ArrayChunks.next toggleStep
        (ArrayChunks.new (T := Nat) 2 (false, 0))).2.remainder ≠ some [] →
      0 < (ArrayChunks.next toggleStep
        (ArrayChunks.new (T := Nat) 2 (false, 0))).2.num_init ∧
      (ArrayChunks.next toggleStep
        (ArrayChunks.new (T := Nat) 2 (false, 0))).2.num_init < 2) :=
  claim_C8 toggleStep
    (ArrayChunks.next toggleStep (ArrayChunks.new 2 (false, 0))).2
    (Reachable.next (ArrayChunks.new 2 (false, 0)) (Reachable.new (false, 0)))

/-- C9: duplication (the `Clone` implementation, modelled from the spec because it is
exercised by `lib.rs` but absent from `src/`) yields an independent adapter with a
duplicated source, whose first `num_init` slots are element-wise copies of the
original's live prefix and whose remaining slots are empty; the unoccupied suffix of
the original is neither copied nor interpreted (the clone depends only on the source
state, `num_init`, and the occupied prefix). -/
theorem claim_C9 {σ T : Type} {N : Nat} (cloneIter : σ → σ) (cloneElem : T → T)
    (st : ArrayChunks σ T N) (hv : st.Valid) :
    (ArrayChunks.clone cloneIter cloneElem st).iter = cloneIter st.iter ∧
    (ArrayChunks.clone cloneIter cloneElem st).num_init = st.num_init ∧
    (ArrayChunks.clone cloneIter cloneElem st).Valid ∧
    (ArrayChunks.clone cloneIter cloneElem st).buf.take st.num_init =
      (st.buf.take st.num_init).map (Option.map cloneElem) ∧
    (∀ i : Nat, st.num_init ≤ i → i < N →
      (ArrayChunks.clone cloneIter cloneElem st).buf.getD i none = none) ∧
    (∀ st₂ : ArrayChunks σ T N, st₂.iter = st.iter → st₂.num_init = st.num_init →
      st₂.buf.take st₂.num_init = st.buf.take st.num_init →
      ArrayChunks.clone cloneIter cloneElem st₂ =
        ArrayChunks.clone cloneIter cloneElem st) := by
  have hlenA : ((st.buf.take st.num_init).map (Option.map cloneElem)).length =
      st.num_init := by
    have h2 := hv.2.1
    rw [List.length_map, List.length_take, hv.1]
    omega
  have htake : ((st.buf.take st.num_init).map (Option.map cloneElem) ++
      List.replicate (N - st.num_init) none).take st.num_init =
      (st.buf.take st.num_init).map (Option.map cloneElem) :=
    List.take_left' hlenA
  refine ⟨rfl, rfl, ⟨?_, hv.2.1, ?_⟩, htake, ?_, ?_⟩
  · show ((st.buf.take st.num_init).map (Option.map cloneElem) ++
      List.replicate (N - st.num_init) none).length = N
    have := hv.2.1
    rw [List.length_append, hlenA, List.length_replicate]
    omega
  · show ∀ o ∈ ((st.buf.take st.num_init).map (Option.map cloneElem) ++
      List.replicate (N - st.num_init) none).take st.num_init, o.isSome = true
    rw [htake]
    intro o ho
    obtain ⟨o', ho', rfl⟩ := List.mem_map.mp ho
    obtain ⟨y, rfl⟩ := Option.isSome_iff_exists.mp (hv.2.2 o' ho')
    rfl
  · intro i h1 h2
    show (((st.buf.take st.num_init).map (Option.map cloneElem) ++
      List.replicate (N - st.num_init) none).getD i none) = none
    rw [List.getD_eq_getElem?_getD,
      List.getElem?_append_right (by rw [hlenA]; omega), hlenA,
      List.getElem?_replicate]
    by_cases hc : i - st.num_init < N - st.num_init <;> simp [hc]
  · intro st₂ h1 h2 h3
    have h3' := h3
    rw [h2] at h3'
    simp only [ArrayChunks.clone, h1, h2, h3']

/-- Witness for C9 at a valid state with a one-element occupied prefix, cloning with
identity source and element duplication. -/
theorem claim_C9_witness :
    (ArrayChunks.clone (fun s => s) (fun x => x)
        (⟨(true, 1), [some 1, none], 1⟩ : ArrayChunks (Bool × Nat) Nat 2)).iter =
      (fun s : Bool × Nat => s)
        (⟨(true, 1), [some 1, none], 1⟩ : ArrayChunks (Bool × Nat) Nat 2).iter ∧
    (ArrayChunks.clone (fun s => s) (fun x => x)
        (⟨(true, 1), [some 1, none], 1⟩ :
          ArrayChunks (Bool × Nat) Nat 2)).num_init =
      (⟨(true, 1), [some 1, none], 1⟩ :
        ArrayChunks (Bool × Nat) Nat 2).num_init ∧
    (ArrayChunks.clone (fun s => s) (fun x => x)
        (⟨(true, 1), [some 1, none], 1⟩ :
          ArrayChunks (Bool × Nat) Nat 2)).Valid ∧
    (ArrayChunks.clone (fun s => s) (fun x => x)
        (⟨(true, 1), [some 1, none], 1⟩ :
          ArrayChunks (Bool × Nat) Nat 2)).buf.take
      (⟨(true, 1), [some 1, none], 1⟩ :
        ArrayChunks (Bool × Nat) Nat 2).num_init =
      ((⟨(true, 1), [some 1, none], 1⟩ :
        ArrayChunks (Bool × Nat) Nat 2).buf.take
        (⟨(true, 1), [some 1, none], 1⟩ :
          ArrayChunks (Bool × Nat) Nat 2).num_init).map
        (Option.map fun x : Nat => x) ∧
    (∀ i : Nat,
      (⟨(true, 1), [some 1, none], 1⟩ :
        ArrayChunks (Bool × Nat) Nat 2).num_init ≤ i → i < 2 →
      (ArrayChunks.clone (fun s => s) (fun x => x)
        (⟨(true, 1), [some 1, none], 1⟩ :
          ArrayChunks (Bool × Nat) Nat 2)).buf.getD i none = none) ∧
    (∀ st₂ : ArrayChunks (Bool × Nat) Nat 2,
      st₂.iter = (⟨(true, 1), [some 1, none], 1⟩ :
        ArrayChunks (Bool × Nat) Nat 2).iter →
      st₂.num_init = (⟨(true, 1), [some 1, none], 1⟩ :
        ArrayChunks (Bool × Nat) Nat 2).num_init →
      st₂.buf.take st₂.num_init =
        (⟨(true, 1), [some 1, none], 1⟩ :
          ArrayChunks (Bool × Nat) Nat 2).buf.take
          (⟨(true, 1), [some 1, none], 1⟩ :
            ArrayChunks (Bool × Nat) Nat 2).num_init →
      ArrayChunks.clone (fun s => s) (fun x => x) st₂ =
        ArrayChunks.clone (fun s => s) (fun x => x)
          (⟨(true, 1), [some 1, none], 1⟩ :
            ArrayChunks (Bool × Nat) Nat 2)) :=
  claim_C9 (fun s => s) (fun x => x)
    (⟨(true, 1), [some 1, none], 1⟩ : ArrayChunks (Bool × Nat) Nat 2) (by decide)

/-- C10: for every `N ≥ 1` and every `next` call, the source is queried at most
`N - num_init` times (the number of empty slots before the call, instrumented by a
query counter attached to the source); it is queried exactly that many times when the
call returns a full chunk, and when the call returns no chunk the querying stopped at
the first exhaustion signal: the query count equals the number of newly stored
elements plus the single query that signalled exhaustion. -/
theorem claim_C10 {σ T : Type} {N : Nat} (_hN : 1 ≤ N) (step : Iter σ T)
    (st : ArrayChunks σ T N) (hv : st.Valid) :
    (ArrayChunks.next (countStep step) (withCounter st)).2.iter.2 ≤
      N - st.num_init ∧
    (∀ (g : List T) (st' : ArrayChunks (σ × Nat) T N),
      ArrayChunks.next (countStep step) (withCounter st) = (some g, st') →
      st'.iter.2 = N - st.num_init) ∧
    (∀ st' : ArrayChunks (σ × Nat) T N,
      ArrayChunks.next (countStep step) (withCounter st) = (none, st') →
      st'.iter.2 = (st'.num_init - st.num_init) + 1) := by
  obtain ⟨p, hp, hplen⟩ := valid_take_exists hv
  have hv' : (withCounter st).Valid := ⟨hv.1, hv.2.1, hv.2.2⟩
  have hp' : (withCounter st).buf.take (withCounter st).num_init = p.map some := hp
  rcases hpull : pulls step st.iter (N - st.num_init) with ⟨xs, s', full⟩
  have hpullC := pulls_countStep step (N - st.num_init) st.iter 0
  rw [hpull] at hpullC
  cases full with
  | true =>
    simp only [if_true, Nat.zero_add, Nat.add_zero] at hpullC
    have hxs : xs.length = N - st.num_init := pulls_full_length hpull
    have hnext := next_eq_of_full hv' hp'
      (show pulls (countStep step) (withCounter st).iter
          (N - (withCounter st).num_init) = (xs, (s', xs.length), true) from hpullC)
    rw [hnext]
    refine ⟨by simp [hxs], ?_, ?_⟩
    · intro g st' h
      simp only [Prod.mk.injEq, Option.some.injEq] at h
      obtain ⟨-, rfl⟩ := h
      exact hxs
    · intro st' h
      simp at h
  | false =>
    simp only [if_false, Nat.zero_add] at hpullC
    have hlt : xs.length < N - st.num_init := pulls_len_lt_of_not_full hpull
    have hnext := next_eq_of_not_full
      (show pulls (countStep step) (withCounter st).iter
          (N - (withCounter st).num_init) =
        (xs, (s', xs.length + 1), false) from hpullC)
    rw [hnext]
    refine ⟨by simp; omega, ?_, ?_⟩
    · intro g st' h
      simp at h
    · intro st' h
      simp only [Prod.mk.injEq] at h
      obtain ⟨-, rfl⟩ := h
      show xs.length + 1 = (st.num_init + xs.length) - st.num_init + 1
      omega

/-- Witness for C10: a fresh `N = 2` adapter over the one-element list source `[7]`;
the single `next` call stores one element, hits exhaustion, and has queried the
source exactly twice. -/
theorem claim_C10_witness :
    (ArrayChunks.next (countStep listStep)
        (withCounter (ArrayChunks.new (T := Nat) 2 [7]))).2.iter.2 ≤ 2 - 0 ∧
    (∀ (g : List Nat) (st' : ArrayChunks (List Nat × Nat) Nat 2),
      ArrayChunks.next (countStep listStep)
          (withCounter (ArrayChunks.new (T := Nat) 2 [7])) = (some g, st') →
      st'.iter.2 = 2 - 0) ∧
    (∀ st' : ArrayChunks (List Nat × Nat) Nat 2,
      ArrayChunks.next (countStep listStep)
          (withCounter (ArrayChunks.new (T := Nat) 2 [7])) = (none, st') →
      st'.iter.2 = (st'.num_init - 0) + 1) :=
  claim_C10 (by decide) listStep (ArrayChunks.new 2 [7]) (by decide)

end ArrayChunksVerify
